import Mathlib

/-!
Verification development for the media-downloader service: the `/api/process`
download supervisor of `src/server.ts` (latest revision) and the hook
notification fan-out (`HookManager.notify`, `WebhookHook.execute`).

Embedding conventions:
* JavaScript strings are `List Char`; the helper functions below embed the
  exact string primitives the source uses (`trim`, `endsWith`, `split('\n')`,
  `join('\n')`, `toLowerCase`, `includes`, `path.isAbsolute`, `path.basename`,
  `path.extname`, `path.join`, `padStart(2, '0')`) on ASCII data.
* The local filesystem is the list of currently-existing paths;
  `fs.existsSync` is membership, `fs.unlinkSync` removes a path.
* The child process is a triple of stdout data chunks, stderr data chunks and
  an exit code (`number | null` is `Option Int`).
-/

set_option maxHeartbeats 1000000

namespace MediaDL

/-! ### String primitives (JavaScript semantics on ASCII data) -/

/-- JavaScript whitespace characters relevant to ASCII process output
(space, tab, newline, carriage return, vertical tab, form feed). -/
def isWS (c : Char) : Bool :=
  c = ' ' || c = '\t' || c = '\n' || c = '\r' || c = '\x0b' || c = '\x0c'

/-- JavaScript `String.prototype.trim`: strip whitespace from both ends. -/
def trimL (l : List Char) : List Char :=
  ((l.dropWhile isWS).reverse.dropWhile isWS).reverse

/-- Does `l` start with the pattern `pat`? -/
def startsWithSeg : List Char → List Char → Bool
  | _, [] => true
  | [], _ :: _ => false
  | c :: cs, p :: ps => c = p && startsWithSeg cs ps

/-- JavaScript `String.prototype.includes`: `pat` occurs contiguously in `l`. -/
def containsSeg : List Char → List Char → Bool
  | [], pat => startsWithSeg [] pat
  | l@(_ :: cs), pat => startsWithSeg l pat || containsSeg cs pat

/-- JavaScript `String.prototype.endsWith`. -/
def endsWithL (l suf : List Char) : Bool :=
  startsWithSeg l.reverse suf.reverse

/-- `path.isAbsolute` on posix: the path starts with a slash. -/
def isAbsoluteL (l : List Char) : Bool :=
  match l with
  | [] => false
  | c :: _ => c = '/'

/-- ASCII lower-casing of one character (`String.prototype.toLowerCase`). -/
def toLowerCh (c : Char) : Char :=
  if 'A' ≤ c && c ≤ 'Z' then Char.ofNat (c.toNat + 32) else c

/-- ASCII `String.prototype.toLowerCase`. -/
def toLowerL (l : List Char) : List Char :=
  l.map toLowerCh

/-- JavaScript `String.prototype.split('\n')`: segments between newline
characters; always non-empty; keeps empty segments. -/
def splitNl : List Char → List (List Char)
  | [] => [[]]
  | c :: rest =>
    if c = '\n' then [] :: splitNl rest
    else
      match splitNl rest with
      | [] => [[c]]
      | l :: ls => (c :: l) :: ls

/-- JavaScript `Array.prototype.join('\n')`. -/
def joinNlL : List (List Char) → List Char
  | [] => []
  | [l] => l
  | l :: ls => l ++ '\n' :: joinNlL ls

/-- `path.join` (posix) for the simple two-segment joins the source performs:
insert a slash separator unless one side already provides it. -/
def pathJoinL (a b : List Char) : List Char :=
  if a = [] then b
  else if a.getLast? = some '/' then a ++ b
  else a ++ '/' :: b

/-- `path.basename` (posix, no suffix argument): drop trailing slashes, then
take the segment after the last remaining slash. -/
def basenameL (p : List Char) : List Char :=
  ((p.reverse.dropWhile (· = '/')).takeWhile (· ≠ '/')).reverse

/-- `path.basename(p, suffix)` (posix): the basename, with `suffix` removed
when the basename ends with it and is not equal to it. -/
def basenameSufL (p suffix : List Char) : List Char :=
  let b := basenameL p
  if suffix ≠ [] && suffix ≠ b && endsWithL b suffix then
    b.take (b.length - suffix.length)
  else b

/-- Index of the last `.` in a name, if any. -/
def lastDotIdx (name : List Char) : Option Nat :=
  match name.reverse.findIdx? (· = '.') with
  | none => none
  | some j => some (name.length - 1 - j)

/-- `path.extname` (posix) on the simple file names reaching it here (the
basename of a path that ends in a media extension): the substring from the
last dot, empty when there is no dot or the only dot leads the name. -/
def extnameL (p : List Char) : List Char :=
  let name := basenameL p
  match lastDotIdx name with
  | none => []
  | some 0 => []
  | some k => name.drop k

/-- `n.toString().padStart(2, '0')` for the natural time components used by
`formatTimeHHMMSS`. -/
def pad2 (n : Nat) : List Char :=
  if n < 10 then '0' :: (Nat.toDigits 10 n) else Nat.toDigits 10 n

/-- `formatTimeHHMMSS` from `/api/process`: zero-padded `HH:MM:SS` rendering
of a whole number of seconds. -/
def formatTimeHHMMSS (seconds : Nat) : List Char :=
  pad2 (seconds / 3600) ++ ':' :: pad2 (seconds % 3600 / 60) ++ ':' :: pad2 (seconds % 60)

/-! ### Supervisor per-run mutable state (the closure variables of
`/api/process`: `stdoutBuffer`, `logs`, `errorLogs`, `finalFilePath`) -/

structure RunState where
  stdoutBuffer : List Char
  logs : List (List Char)
  errorLogs : List (List Char)
  finalFilePath : List Char
deriving DecidableEq

/-- The initial closure state of one `/api/process` run. -/
def initState : RunState :=
  { stdoutBuffer := [], logs := [], errorLogs := [], finalFilePath := [] }

/-- `MAX_LOGS`. -/
def MAX_LOGS : Nat := 100

/-- `addLog`: push onto a ring buffer, evicting the oldest entry past
`MAX_LOGS`. -/
def addLog (queue : List (List Char)) (message : List Char) : List (List Char) :=
  let q := queue ++ [message]
  if MAX_LOGS < q.length then q.tail else q

/-- The capture test of `processLine`: a trimmed line is a candidate output
path when it ends in `.mp4`, `.mp3` or `.wav` and is absolute. -/
def isOutputPath (trimmed : List Char) : Bool :=
  (endsWithL trimmed ".mp4".data || endsWithL trimmed ".mp3".data
    || endsWithL trimmed ".wav".data) && isAbsoluteL trimmed

/-- `processLine`: trim the line; skip blanks; append to the stdout ring
buffer; capture it as `finalFilePath` when it qualifies as an output path. -/
def processLine (st : RunState) (line : List Char) : RunState :=
  let trimmed := trimL line
  if trimmed = [] then st
  else
    let st' := { st with logs := addLog st.logs trimmed }
    if isOutputPath trimmed then { st' with finalFilePath := trimmed } else st'

/-- The `ytDlp.stdout.on('data')` handler: append the chunk to the carry-over
buffer, split on newlines, keep the final (possibly partial) segment as the
new buffer, and run `processLine` on every complete line. -/
def feedChunk (st : RunState) (chunk : List Char) : RunState :=
  let lines := splitNl (st.stdoutBuffer ++ chunk)
  let newBuf := lines.getLast?.getD []
  lines.dropLast.foldl processLine { st with stdoutBuffer := newBuf }

/-- The per-line body of the stderr handler: append the trimmed line to the
stderr ring buffer unless it is blank. -/
def errStep (s : RunState) (line : List Char) : RunState :=
  if trimL line = [] then s
  else { s with errorLogs := addLog s.errorLogs (trimL line) }

/-- The `ytDlp.stderr.on('data')` handler: split the chunk on newlines and
append every non-blank trimmed line to the stderr ring buffer (no carry-over
buffering on this stream). -/
def feedErrChunk (st : RunState) (chunk : List Char) : RunState :=
  (splitNl chunk).foldl errStep st

/-- Feed every stdout data chunk in order. -/
def feedAll (st : RunState) (chunks : List (List Char)) : RunState :=
  chunks.foldl feedChunk st

/-- Feed every stderr data chunk in order. -/
def feedErrAll (st : RunState) (chunks : List (List Char)) : RunState :=
  chunks.foldl feedErrChunk st

/-- The process-exit flush: classify the remaining unterminated stdout buffer
when it is non-blank. -/
def closeFlush (st : RunState) : RunState :=
  if trimL st.stdoutBuffer ≠ [] then processLine st st.stdoutBuffer else st

/-- The cookie cleanup at the head of the `close` handler: unlink the
temporary cookie file when one was created and still exists. -/
def cleanupFs (fs : List (List Char)) (cookieFile : List Char) : List (List Char) :=
  if cookieFile ≠ [] ∧ cookieFile ∈ fs then fs.filter (· ≠ cookieFile) else fs

/-- The terminal result of one supervised run, as the spec's
`DownloadOutcome`: the success fields are `finalFilePath`, `downloadedFile`,
`videoTitle` and the request URL computed at the end of the `close` handler;
a failure carries the response's `error` kind and `details` strings. -/
inductive Outcome where
  | success (filePath fileName derivedTitle sourceUrl : List Char)
  | failure (error details : List Char)
deriving DecidableEq

/-- Is the outcome a `Success`? -/
def Outcome.isSuccess : Outcome → Bool
  | .success _ _ _ _ => true
  | .failure _ _ => false

/-- The raw detail the generic-failure response carries,
`errorLogs.join('\n') || logs.join('\n')`: the joined stderr ring buffer,
falling back to the joined stdout ring buffer when the former is empty. -/
def failureDetails (st : RunState) : List Char :=
  let e := joinNlL st.errorLogs
  if e ≠ [] then e else joinNlL st.logs

/-- The `ytDlp.on('close')` handler of `/api/process`: delete the cookie file,
flush the trailing stdout buffer, then classify the exit: non-zero status is a
generic failure carrying the joined stderr logs (falling back to the stdout
logs); a zero status without a captured, existing output path is the distinct
file-not-detected failure; otherwise success with the basename and the
extension-stripped title of the captured path. -/
def closeHandler (fs : List (List Char)) (url cookieFile : List Char)
    (st : RunState) (code : Option Int) : Outcome × List (List Char) :=
  let fs' := cleanupFs fs cookieFile
  let st' := closeFlush st
  if code ≠ some 0 then
    (Outcome.failure "Download failed".data
      (let e := joinNlL st'.errorLogs
       if e ≠ [] then e else joinNlL st'.logs), fs')
  else if st'.finalFilePath = [] ∨ st'.finalFilePath ∉ fs' then
    (Outcome.failure "Download failed - file not detected".data
      "yt-dlp exited successfully but the output filename could not be determined.".data,
     fs')
  else
    let downloadedFile := basenameL st'.finalFilePath
    (Outcome.success st'.finalFilePath downloadedFile
      (basenameSufL downloadedFile (extnameL downloadedFile)) url, fs')

/-- One whole supervised run against a child that produced the given stdout
and stderr data chunks and exit code: stream both handlers over the initial
closure state, then run the `close` handler. (The stdout and stderr handlers
touch disjoint state fields, so their relative interleaving is irrelevant.) -/
def runProcess (fs : List (List Char)) (url cookieFile : List Char)
    (outChunks errChunks : List (List Char)) (code : Option Int) :
    Outcome × List (List Char) :=
  closeHandler fs url cookieFile (feedErrAll (feedAll initState outChunks) errChunks) code

/-- The candidate output path captured from a run's stdout chunks, including
the process-exit flush of the unterminated trailing data. -/
def captureCandidate (outChunks : List (List Char)) : List Char :=
  (closeFlush (feedAll initState outChunks)).finalFilePath

/-! ### Argument and template construction of `/api/process` -/

/-- `url.toLowerCase().includes('soundcloud.com')`. -/
def isSoundCloud (url : List Char) : Bool :=
  containsSeg (toLowerL url) "soundcloud.com".data

/-- `audioOnly || isSoundCloud`. -/
def effectiveAudioOnly (url : List Char) (audioOnly : Bool) : Bool :=
  audioOnly || isSoundCloud url

/-- The video format selector string. -/
def videoFormatSelector : List Char :=
  "bestvideo[height<=1080][vcodec^=avc1]+bestaudio[ext=m4a]/bestvideo[height<=1080]+bestaudio/best[height<=1080]/best".data

/-- The mode-specific format arguments: lossless `wav` extraction on
SoundCloud, highest-quality `mp3` extraction for other audio-only requests,
the capped video selector plus `mp4` merge otherwise. -/
def formatArgs (url : List Char) (audioOnly : Bool) : List (List Char) :=
  if effectiveAudioOnly url audioOnly then
    if isSoundCloud url then
      ["-x".data, "--audio-format".data, "wav".data]
    else
      ["-x".data, "--audio-format".data, "mp3".data, "--audio-quality".data, "0".data]
  else
    ["-f".data, videoFormatSelector, "--merge-output-format".data, "mp4".data]

/-- The `--download-sections` arguments added when `enableRange` is set and
both boundaries are defined. -/
def rangeArgs (enableRange : Bool) (startTime endTime : Option Nat) : List (List Char) :=
  match enableRange, startTime, endTime with
  | true, some s, some e =>
    ["--download-sections".data, '*' :: (formatTimeHHMMSS s ++ '-' :: formatTimeHHMMSS e)]
  | _, _, _ => []

/-- The `--cookies` arguments added when a cookie file was written. -/
def cookieArgs (cookieFile : List Char) : List (List Char) :=
  if cookieFile ≠ [] then ["--cookies".data, cookieFile] else []

/-- The full yt-dlp argument vector built by `/api/process`, in source order:
base flags and output template, optional cookie file, mode-specific format
flags, optional range directive, and finally the URL. -/
def buildArgs (url : List Char) (audioOnly enableRange : Bool)
    (startTime endTime : Option Nat) (cookieFile outputTmpl : List Char) :
    List (List Char) :=
  ["--no-playlist".data, "--print".data, "after_move:filepath".data,
   "--no-simulate".data, "--js-runtimes".data, "bun".data, "-o".data, outputTmpl]
  ++ cookieArgs cookieFile
  ++ formatArgs url audioOnly
  ++ rangeArgs enableRange startTime endTime
  ++ [url]

/-- The target directory of a request: the audio or video directory under the
base download directory, extended by the trimmed sub-folder when one is
supplied. -/
def targetDirOf (base url : List Char) (audioOnly : Bool)
    (subFolder : Option (List Char)) : List Char :=
  let dir := if effectiveAudioOnly url audioOnly then pathJoinL base "audio".data
             else pathJoinL base "videos".data
  match subFolder with
  | some s => if trimL s ≠ [] then pathJoinL dir (trimL s) else dir
  | none => dir

/-- The yt-dlp output template of a request: the title/extension pattern under
the target directory. -/
def outputTemplate (base url : List Char) (audioOnly : Bool)
    (subFolder : Option (List Char)) : List Char :=
  pathJoinL (targetDirOf base url audioOnly subFolder) "%(title)s.%(ext)s".data

/-- The name of the per-request temporary cookie file,
`cookies_<random id>.txt` under the base download directory. -/
def cookieFileName (base id : List Char) : List Char :=
  pathJoinL base ("cookies_".data ++ id ++ ".txt".data)

/-- The pre-spawn cookie setup: when cookie text is supplied (non-blank), a
uniquely-named temporary file is written before the spawn; the first component
is the `cookieFile` closure variable of the run (empty when no file was
written). -/
def setupCookie (fs : List (List Char)) (base cookies id : List Char) :
    List Char × List (List Char) :=
  if trimL cookies ≠ [] then
    let cf := cookieFileName base id
    (cf, if cf ∈ fs then fs else fs ++ [cf])
  else ([], fs)

/-! ### Notification fan-out (`HookManager`, `WebhookHook`) -/

/-- The outcome record handed to the hooks (`DownloadResult` in
`src/hooks/Hook.ts`). -/
structure DownloadResult where
  filePath : List Char
  fileName : List Char
  videoTitle : List Char
  sourceUrl : List Char
deriving DecidableEq

/-- One per-request generic-webhook target entry of `HookConfig`. -/
structure WebhookEntry where
  url : List Char
deriving DecidableEq

/-- One per-request chat-webhook target entry of `HookConfig`. -/
structure SlackEntry where
  webhookUrl : List Char
deriving DecidableEq

/-- The per-request social-publish credential override of `HookConfig`. -/
structure TiktokCfg where
  clientKey : Option (List Char) := none
  clientSecret : Option (List Char) := none
  accessToken : Option (List Char) := none
  title : Option (List Char) := none
deriving DecidableEq

/-- The per-request hook configuration (`HookConfig` in `src/hooks/Hook.ts`);
each absent field falls back to the process-wide default configuration. -/
structure HookConfig where
  tiktok : Option TiktokCfg := none
  slack : Option (List SlackEntry) := none
  webhook : Option (List WebhookEntry) := none
deriving DecidableEq

/-- The settled record `Promise.allSettled` produces for one task. -/
inductive Settled where
  | fulfilled
  | rejected (reason : List Char)
deriving DecidableEq

/-- One registered hook, as the fan-out sees it: a name and an `execute`
member taking the outcome record and an optional per-request configuration and
either resolving or rejecting with a reason. -/
structure HookT where
  name : List Char
  exec : DownloadResult → Option HookConfig → Except (List Char) Unit

/-- Settle one task's result, as `Promise.allSettled` records it. -/
def settleOne : Except (List Char) Unit → Settled
  | .ok _ => .fulfilled
  | .error e => .rejected e

/-- `Promise.allSettled`: every task is settled; no rejection propagates. -/
def allSettled (tasks : List (Except (List Char) Unit)) : List Settled :=
  tasks.map settleOne

/-- `HookManager.notify` (src/hooks/HookManager.ts): its signature takes only
the result record; it starts one `hook.execute(result)` task per registered
hook — passing no configuration argument — awaits them all through
`Promise.allSettled`, logs each settled status, and returns normally. A run
of this `async` function neither throws synchronously nor awaits a rejecting
promise, so its own promise always fulfills: the embedding returns
`Except.ok` of the settled per-hook results. -/
def notify (hooks : List HookT) (result : DownloadResult) :
    Except (List Char) (List Settled) :=
  let tasks := hooks.map (fun h => h.exec result none)
  let results := allSettled tasks
  Except.ok results

/-- The call site in `/api/process`: `hookManager.notify(result, hookConfig)`
passes two arguments, but `notify` declares a single parameter, so JavaScript
drops the extra argument at the call boundary. -/
def serverNotify (hooks : List HookT) (result : DownloadResult)
    (hookConfig : Option HookConfig) : Except (List Char) (List Settled) :=
  notify hooks result

/-- JavaScript truthiness of `string | undefined`. -/
def jsTruthy (s : Option (List Char)) : Bool :=
  match s with
  | some u => u ≠ []
  | none => false

/-- The target resolution of `WebhookHook.execute` (revision taking a
`HookConfig`): when the request config carries a non-empty webhook list, its
truthy URLs are the targets; otherwise the process-wide default target (when
truthy) is the sole target. -/
def webhookUrlsToNotify (targetUrl : Option (List Char))
    (config : Option HookConfig) : List (List Char) :=
  match config.bind (fun c => c.webhook) with
  | some cs =>
    if 0 < cs.length then
      cs.filterMap (fun c => if c.url ≠ [] then some c.url else none)
    else match targetUrl with
      | some u => if u ≠ [] then [u] else []
      | none => []
  | none =>
    match targetUrl with
    | some u => if u ≠ [] then [u] else []
    | none => []

/-- The HTTP POSTs `WebhookHook.execute` performs: the raw outcome record to
every resolved target URL (each posted independently; individual failures are
caught inside the hook). -/
def webhookExecutePosts (targetUrl : Option (List Char)) (result : DownloadResult)
    (config : Option HookConfig) : List (List Char × DownloadResult) :=
  (webhookUrlsToNotify targetUrl config).map (fun u => (u, result))

/-- The generic-webhook POSTs actually performed for one successful request:
the server calls `hookManager.notify(result, hookConfig)`, and `notify` runs
`hook.execute(result)` with no configuration argument, so the webhook hook
executes with an undefined config. -/
def notifyWebhookPosts (targetUrl : Option (List Char)) (result : DownloadResult)
    (requestConfig : Option HookConfig) : List (List Char × DownloadResult) :=
  webhookExecutePosts targetUrl result none

/-- Batch-processing form of the stdout handler: classify all complete lines
of `content` and keep its trailing segment as the carry-over buffer. -/
def absorb (st : RunState) (content : List Char) : RunState :=
  let lines := splitNl content
  lines.dropLast.foldl processLine { st with stdoutBuffer := lines.getLast?.getD [] }

/-- The qualifying output-path lines of a stdout text: the trimmed lines, in
order, that pass the capture test. -/
def qualifiedLines (content : List Char) : List (List Char) :=
  ((splitNl content).map trimL).filter isOutputPath

/-! ### Lemmas: the streaming parse is equivalent to splitting the whole
stdout text on newlines -/

/-- Splitting always yields at least one segment. -/
theorem splitNl_ne_nil (l : List Char) : splitNl l ≠ [] := by
  cases l with
  | nil => simp [splitNl]
  | cons c rest =>
    by_cases h : c = '\n'
    · simp [splitNl, h]
    · simp only [splitNl, if_neg h]
      cases hs : splitNl rest <;> simp

/-- Splitting a concatenation: the complete segments of the left part, then
the split of its trailing segment glued onto the right part. -/
theorem splitNl_append (a b : List Char) :
    splitNl (a ++ b)
      = (splitNl a).dropLast ++ splitNl ((splitNl a).getLast?.getD [] ++ b) := by
  induction a with
  | nil => simp [splitNl]
  | cons c a ih =>
    by_cases h : c = '\n'
    · subst h
      rw [List.cons_append]
      simp only [splitNl, if_pos rfl]
      rw [ih]
      cases hs : splitNl a with
      | nil => exact absurd hs (splitNl_ne_nil a)
      | cons l ls =>
        cases ls <;> simp [List.dropLast, List.getLast?_cons_cons]
    · rw [List.cons_append]
      simp only [splitNl, if_neg h]
      rw [ih]
      cases hs : splitNl a with
      | nil => exact absurd hs (splitNl_ne_nil a)
      | cons l ls =>
        cases ls with
        | nil =>
          simp only [List.dropLast, List.nil_append, List.getLast?_singleton,
            Option.getD_some]
          rw [List.cons_append]
          simp only [splitNl, if_neg h]
        | cons l2 ls2 =>
          simp only [List.getLast?_cons_cons]
          cases hd : splitNl (a ++ b) with
          | nil => exact absurd hd (splitNl_ne_nil _)
          | cons m ms =>
            simp only [List.dropLast_cons₂, List.cons_append]

theorem feedChunk_eq_absorb (st : RunState) (c : List Char) :
    feedChunk st c = absorb st (st.stdoutBuffer ++ c) := rfl

theorem processLine_buffer (st : RunState) (l : List Char) :
    (processLine st l).stdoutBuffer = st.stdoutBuffer := by
  simp only [processLine]
  split
  · rfl
  · split <;> rfl

theorem processLine_errorLogs (st : RunState) (l : List Char) :
    (processLine st l).errorLogs = st.errorLogs := by
  simp only [processLine]
  split
  · rfl
  · split <;> rfl

/-- `processLine` treats the carry-over buffer as inert data. -/
theorem processLine_setBuffer (st : RunState) (b l : List Char) :
    processLine { st with stdoutBuffer := b } l
      = { processLine st l with stdoutBuffer := b } := by
  simp only [processLine]
  split
  · rfl
  · split <;> rfl

theorem foldl_processLine_setBuffer (st : RunState) (b : List Char)
    (ls : List (List Char)) :
    ls.foldl processLine { st with stdoutBuffer := b }
      = { ls.foldl processLine st with stdoutBuffer := b } := by
  induction ls generalizing st with
  | nil => rfl
  | cons l ls ih =>
    simp only [List.foldl_cons, processLine_setBuffer, ih]

theorem foldl_processLine_buffer (st : RunState) (ls : List (List Char)) :
    (ls.foldl processLine st).stdoutBuffer = st.stdoutBuffer := by
  induction ls generalizing st with
  | nil => rfl
  | cons l ls ih => simp only [List.foldl_cons, ih, processLine_buffer]

theorem absorb_setBuffer (st : RunState) (b content : List Char) :
    absorb { st with stdoutBuffer := b } content = absorb st content := rfl

/-- Feeding a further chunk into an absorbed state absorbs the concatenation:
the retained partial trailing segment merges with the new data. -/
theorem feedChunk_absorb (st : RunState) (x c : List Char) :
    feedChunk (absorb st x) c = absorb st (x ++ c) := by
  have hbuf : (absorb st x).stdoutBuffer = (splitNl x).getLast?.getD [] := by
    simp only [absorb, foldl_processLine_buffer]
  have h1 : absorb st x
      = { (splitNl x).dropLast.foldl processLine st with
          stdoutBuffer := (splitNl x).getLast?.getD [] } := by
    simp only [absorb, foldl_processLine_setBuffer]
  rw [feedChunk_eq_absorb, hbuf, h1, absorb_setBuffer]
  simp only [absorb]
  rw [splitNl_append x c,
    List.dropLast_append_of_ne_nil _ (splitNl_ne_nil _),
    List.getLast?_append_of_ne_nil _ (splitNl_ne_nil _),
    List.foldl_append]
  simp only [foldl_processLine_setBuffer]

theorem absorb_nil (st : RunState) :
    absorb st [] = { st with stdoutBuffer := [] } := rfl

/-- The whole streamed stdout handling equals absorbing the concatenation of
all data chunks at once. -/
theorem feedAll_eq_absorb (chunks : List (List Char)) :
    feedAll initState chunks = absorb initState chunks.join := by
  have main : ∀ (cs : List (List Char)) (x : List Char),
      cs.foldl feedChunk (absorb initState x) = absorb initState (x ++ cs.join) := by
    intro cs
    induction cs with
    | nil => intro x; simp
    | cons c cs ih =>
      intro x
      simp only [List.foldl_cons, feedChunk_absorb, List.join_cons, ih,
        List.append_assoc]
  have h0 : initState = absorb initState [] := rfl
  calc feedAll initState chunks = chunks.foldl feedChunk (absorb initState []) := by
        rw [← h0]; rfl
    _ = absorb initState ([] ++ chunks.join) := main chunks []
    _ = absorb initState chunks.join := by rw [List.nil_append]

theorem isOutputPath_nil : isOutputPath [] = false := by decide

/-- The captured candidate after one line: the trimmed line when it
qualifies, the previous candidate otherwise. -/
theorem processLine_final (st : RunState) (l : List Char) :
    (processLine st l).finalFilePath
      = if isOutputPath (trimL l) then trimL l else st.finalFilePath := by
  simp only [processLine]
  by_cases h : trimL l = []
  · rw [if_pos h, h, isOutputPath_nil]
    simp
  · rw [if_neg h]
    split <;> simp_all

/-- The stdout ring buffer after one line. -/
theorem processLine_logs (st : RunState) (l : List Char) :
    (processLine st l).logs
      = if trimL l = [] then st.logs else addLog st.logs (trimL l) := by
  simp only [processLine]
  split
  · simp_all
  · split <;> simp_all

theorem getLast?_getD_cons (a d : List Char) (l : List (List Char)) :
    ((a :: l).getLast?).getD d = (l.getLast?).getD a := by
  cases l with
  | nil => simp
  | cons b bs =>
    rw [List.getLast?_cons_cons]
    obtain ⟨y, hy⟩ : ∃ y, (b :: bs).getLast? = some y :=
      Option.ne_none_iff_exists'.mp (by simp)
    rw [hy]
    simp

/-- Folding the classifier over a list of lines captures the last qualifying
trimmed line (keeping the previous candidate when none qualifies). -/
theorem foldl_processLine_final (ls : List (List Char)) (st : RunState) :
    (ls.foldl processLine st).finalFilePath
      = ((ls.map trimL).filter isOutputPath).getLast?.getD st.finalFilePath := by
  induction ls generalizing st with
  | nil => simp
  | cons l ls ih =>
    simp only [List.foldl_cons, List.map_cons, List.filter_cons]
    rw [ih, processLine_final]
    by_cases h : isOutputPath (trimL l)
    · simp [h, getLast?_getD_cons]
    · simp [h]

/-- The trailing segment of a split is glued back by `dropLast ++ [last]`. -/
theorem splitNl_dropLast_concat (content : List Char) :
    (splitNl content).dropLast ++ [(splitNl content).getLast?.getD []]
      = splitNl content := by
  cases hq : (splitNl content).getLast? with
  | none => exact absurd (List.getLast?_eq_none_iff.mp hq) (splitNl_ne_nil content)
  | some g =>
    simpa using List.dropLast_append_getLast? g (by rw [hq]; rfl)

/-- Flushing after absorbing runs the classifier over every line of the
content, the unterminated trailing segment included. -/
theorem closeFlush_absorb (st : RunState) (content : List Char) :
    closeFlush (absorb st content)
      = { (splitNl content).foldl processLine st with
          stdoutBuffer := (splitNl content).getLast?.getD [] } := by
  have habs : absorb st content
      = { (splitNl content).dropLast.foldl processLine st with
          stdoutBuffer := (splitNl content).getLast?.getD [] } := by
    simp only [absorb, foldl_processLine_setBuffer]
  rw [habs]
  simp only [closeFlush]
  by_cases h : trimL ((splitNl content).getLast?.getD []) = []
  · rw [if_neg (by simpa using h)]
    conv_rhs => rw [← splitNl_dropLast_concat content]
    rw [List.foldl_append]
    simp [processLine, h]
  · rw [if_pos (by simpa using h)]
    rw [processLine_setBuffer]
    conv_rhs => rw [← splitNl_dropLast_concat content]
    rw [List.foldl_append]
    simp [List.foldl]

/-- The candidate captured from streamed chunks is the last qualifying line
of the whole stdout text. -/
theorem captureCandidate_eq (chunks : List (List Char)) :
    captureCandidate chunks = (qualifiedLines chunks.join).getLast?.getD [] := by
  rw [captureCandidate, feedAll_eq_absorb, closeFlush_absorb]
  simp only [qualifiedLines]
  rw [foldl_processLine_final]
  rfl

/-! ### Lemmas: the stderr handler touches only the stderr ring buffer -/

theorem feedErrChunk_preserve (st : RunState) (c : List Char) :
    (feedErrChunk st c).stdoutBuffer = st.stdoutBuffer
    ∧ (feedErrChunk st c).logs = st.logs
    ∧ (feedErrChunk st c).finalFilePath = st.finalFilePath := by
  simp only [feedErrChunk]
  generalize splitNl c = ls
  induction ls generalizing st with
  | nil => exact ⟨rfl, rfl, rfl⟩
  | cons l ls ih =>
    simp only [List.foldl_cons, errStep]
    split
    · exact ih st
    · exact ih _

theorem feedErrAll_preserve (st : RunState) (cs : List (List Char)) :
    (feedErrAll st cs).stdoutBuffer = st.stdoutBuffer
    ∧ (feedErrAll st cs).logs = st.logs
    ∧ (feedErrAll st cs).finalFilePath = st.finalFilePath := by
  simp only [feedErrAll]
  induction cs generalizing st with
  | nil => exact ⟨rfl, rfl, rfl⟩
  | cons c cs ih =>
    simp only [List.foldl_cons]
    obtain ⟨h1, h2, h3⟩ := ih (feedErrChunk st c)
    obtain ⟨g1, g2, g3⟩ := feedErrChunk_preserve st c
    exact ⟨h1.trans g1, h2.trans g2, h3.trans g3⟩

theorem foldl_processLine_errorLogs (ls : List (List Char)) (st : RunState) :
    (ls.foldl processLine st).errorLogs = st.errorLogs := by
  induction ls generalizing st with
  | nil => rfl
  | cons l ls ih => simp only [List.foldl_cons, ih, processLine_errorLogs]

theorem absorb_errorLogs (st : RunState) (content : List Char) :
    (absorb st content).errorLogs = st.errorLogs := by
  simp only [absorb, foldl_processLine_errorLogs]

theorem closeFlush_errorLogs (st : RunState) :
    (closeFlush st).errorLogs = st.errorLogs := by
  simp only [closeFlush]
  split
  · exact processLine_errorLogs st _
  · rfl

/-- The candidate captured by the close-time flush depends only on the stdout
fields, so it is unchanged by stderr activity. -/
theorem closeFlush_final (st : RunState) :
    (closeFlush st).finalFilePath
      = if isOutputPath (trimL st.stdoutBuffer) then trimL st.stdoutBuffer
        else st.finalFilePath := by
  simp only [closeFlush]
  by_cases h : trimL st.stdoutBuffer = []
  · rw [if_neg (by simpa using h), h, isOutputPath_nil]
    simp
  · rw [if_pos (by simpa using h), processLine_final]

theorem closeFlush_logs (st : RunState) :
    (closeFlush st).logs
      = if trimL st.stdoutBuffer = [] then st.logs
        else addLog st.logs (trimL st.stdoutBuffer) := by
  simp only [closeFlush]
  by_cases h : trimL st.stdoutBuffer = []
  · rw [if_neg (by simpa using h), if_pos h]
  · rw [if_pos (by simpa using h), processLine_logs, if_neg h]

/-! ### Lemmas: non-blank output reaches a ring buffer and makes the
reported detail non-empty -/

theorem addLog_ne_nil (q : List (List Char)) (m : List Char) :
    addLog q m ≠ [] := by
  simp only [addLog]
  split
  · next h =>
    have : 0 < (q ++ [m]).tail.length := by
      rw [List.length_tail]
      simp only [MAX_LOGS] at h
      omega
    exact List.ne_nil_of_length_pos this
  · simp

theorem mem_addLog (q : List (List Char)) (m e : List Char)
    (h : e ∈ addLog q m) : e ∈ q ∨ e = m := by
  simp only [addLog] at h
  have : e ∈ q ++ [m] := by
    split at h
    · exact (List.tail_sublist _).mem h
    · exact h
  simpa using this

theorem addLog_allNE (q : List (List Char)) (m : List Char)
    (hq : ∀ e ∈ q, e ≠ []) (hm : m ≠ []) :
    ∀ e ∈ addLog q m, e ≠ [] := by
  intro e he
  rcases mem_addLog q m e he with h | h
  · exact hq e h
  · rw [h]; exact hm

theorem joinNlL_ne_nil (q : List (List Char)) (hq : q ≠ [])
    (hall : ∀ e ∈ q, e ≠ []) : joinNlL q ≠ [] := by
  match q with
  | [] => exact absurd rfl hq
  | [l] => exact hall l (by simp)
  | l :: l2 :: ls =>
    show l ++ '\n' :: joinNlL (l2 :: ls) ≠ []
    simp

theorem foldl_processLine_logs_allNE (ls : List (List Char)) (st : RunState)
    (h : ∀ e ∈ st.logs, e ≠ []) :
    ∀ e ∈ (ls.foldl processLine st).logs, e ≠ [] := by
  induction ls generalizing st with
  | nil => exact h
  | cons l ls ih =>
    simp only [List.foldl_cons]
    refine ih _ ?_
    rw [processLine_logs]
    split
    · exact h
    · next hne => exact addLog_allNE _ _ h hne

theorem foldl_processLine_logs_ne (ls : List (List Char)) (st : RunState)
    (h : st.logs ≠ [] ∨ ∃ l ∈ ls, trimL l ≠ []) :
    (ls.foldl processLine st).logs ≠ [] := by
  induction ls generalizing st with
  | nil =>
    rcases h with h | ⟨l, hl, _⟩
    · exact h
    · simp at hl
  | cons l ls ih =>
    simp only [List.foldl_cons]
    refine ih _ ?_
    rcases h with h | ⟨l', hl', hne⟩
    · left
      rw [processLine_logs]
      split
      · exact h
      · exact addLog_ne_nil _ _
    · rcases List.mem_cons.mp hl' with rfl | hmem
      · left
        rw [processLine_logs, if_neg hne]
        exact addLog_ne_nil _ _
      · right
        exact ⟨l', hmem, hne⟩

/-- A non-newline character of the text lies in some split segment. -/
theorem mem_splitNl (content : List Char) (ch : Char) (h : ch ∈ content)
    (hn : ch ≠ '\n') : ∃ seg ∈ splitNl content, ch ∈ seg := by
  induction content with
  | nil => simp at h
  | cons c rest ih =>
    by_cases hc : c = '\n'
    · subst hc
      rcases List.mem_cons.mp h with rfl | hmem
      · exact absurd rfl hn
      · obtain ⟨seg, hseg, hch⟩ := ih hmem
        exact ⟨seg, by simp [splitNl, hseg], hch⟩
    · simp only [splitNl, if_neg hc]
      cases hs : splitNl rest with
      | nil => exact absurd hs (splitNl_ne_nil rest)
      | cons l ls =>
        rcases List.mem_cons.mp h with rfl | hmem
        · exact ⟨ch :: l, by simp, by simp⟩
        · obtain ⟨seg, hseg, hch⟩ := ih hmem
          rw [hs] at hseg
          rcases List.mem_cons.mp hseg with rfl | htail
          · exact ⟨c :: seg, by simp, by simp [hch]⟩
          · exact ⟨seg, by simp [htail], hch⟩

theorem mem_dropWhile_of_neg {p : Char → Bool} {l : List Char} {ch : Char}
    (h : ch ∈ l) (hp : p ch = false) : ch ∈ l.dropWhile p := by
  induction l with
  | nil => simp at h
  | cons a as ih =>
    by_cases ha : p a
    · rw [List.dropWhile_cons_of_pos ha]
      rcases List.mem_cons.mp h with rfl | hmem
      · rw [ha] at hp; cases hp
      · exact ih hmem
    · rw [List.dropWhile_cons_of_neg ha]
      exact h

/-- A segment containing a non-whitespace character does not trim to the
empty string. -/
theorem trimL_ne_of_mem {seg : List Char} {ch : Char} (h : ch ∈ seg)
    (hw : isWS ch = false) : trimL seg ≠ [] := by
  intro htrim
  simp only [trimL] at htrim
  have h2 : (seg.dropWhile isWS).reverse.dropWhile isWS = [] := by
    have := congrArg List.reverse htrim
    simpa using this
  have hall := List.dropWhile_eq_nil_iff.mp h2
  have hmem : ch ∈ (seg.dropWhile isWS).reverse :=
    List.mem_reverse.mpr (mem_dropWhile_of_neg h hw)
  have := hall ch hmem
  rw [hw] at this
  cases this

theorem isWS_false_ne_newline {ch : Char} (hw : isWS ch = false) : ch ≠ '\n' := by
  intro h
  subst h
  simp [isWS] at hw

theorem errStep_errorLogs (s : RunState) (l : List Char) :
    (errStep s l).errorLogs
      = if trimL l = [] then s.errorLogs else addLog s.errorLogs (trimL l) := by
  simp only [errStep]
  split <;> simp_all

theorem foldl_errStep_allNE (ls : List (List Char)) (st : RunState)
    (h : ∀ e ∈ st.errorLogs, e ≠ []) :
    ∀ e ∈ (ls.foldl errStep st).errorLogs, e ≠ [] := by
  induction ls generalizing st with
  | nil => exact h
  | cons l ls ih =>
    simp only [List.foldl_cons]
    refine ih _ ?_
    rw [errStep_errorLogs]
    split
    · exact h
    · next hne => exact addLog_allNE _ _ h hne

theorem foldl_errStep_ne (ls : List (List Char)) (st : RunState)
    (h : st.errorLogs ≠ [] ∨ ∃ l ∈ ls, trimL l ≠ []) :
    (ls.foldl errStep st).errorLogs ≠ [] := by
  induction ls generalizing st with
  | nil =>
    rcases h with h | ⟨l, hl, _⟩
    · exact h
    · simp at hl
  | cons l ls ih =>
    simp only [List.foldl_cons]
    refine ih _ ?_
    rcases h with h | ⟨l', hl', hne⟩
    · left
      rw [errStep_errorLogs]
      split
      · exact h
      · exact addLog_ne_nil _ _
    · rcases List.mem_cons.mp hl' with rfl | hmem
      · left
        rw [errStep_errorLogs, if_neg hne]
        exact addLog_ne_nil _ _
      · right
        exact ⟨l', hmem, hne⟩

theorem feedErrAll_errorLogs_allNE (cs : List (List Char)) (st : RunState)
    (h : ∀ e ∈ st.errorLogs, e ≠ []) :
    ∀ e ∈ (feedErrAll st cs).errorLogs, e ≠ [] := by
  induction cs generalizing st with
  | nil => exact h
  | cons c cs ih =>
    simp only [feedErrAll, List.foldl_cons]
    exact ih _ (foldl_errStep_allNE _ _ h)

theorem feedErrAll_errorLogs_ne (cs : List (List Char)) (st : RunState)
    (h : st.errorLogs ≠ [] ∨ ∃ c ∈ cs, ∃ l ∈ splitNl c, trimL l ≠ []) :
    (feedErrAll st cs).errorLogs ≠ [] := by
  induction cs generalizing st with
  | nil =>
    rcases h with h | ⟨c, hc, _⟩
    · exact h
    · simp at hc
  | cons c cs ih =>
    simp only [feedErrAll, List.foldl_cons]
    refine ih _ ?_
    rcases h with h | ⟨c', hc', hl⟩
    · left
      exact foldl_errStep_ne _ _ (Or.inl h)
    · rcases List.mem_cons.mp hc' with rfl | hmem
      · left
        exact foldl_errStep_ne _ _ (Or.inr hl)
      · right
        exact ⟨c', hmem, hl⟩

/-! ### Lemmas: the close handler -/

/-- The filesystem returned by the close handler is the cookie cleanup, on
every classification branch. -/
theorem closeHandler_snd (fs : List (List Char)) (url cookieFile : List Char)
    (st : RunState) (code : Option Int) :
    (closeHandler fs url cookieFile st code).2 = cleanupFs fs cookieFile := by
  simp only [closeHandler]
  split
  · rfl
  · split <;> rfl

/-- For a non-empty cookie path the cleanup is exactly removal of that path
(removing nothing when it was never on disk). -/
theorem cleanupFs_eq_filter (fs : List (List Char)) (c : List Char)
    (hc : c ≠ []) : cleanupFs fs c = fs.filter (· ≠ c) := by
  simp only [cleanupFs]
  split
  · rfl
  · next h =>
    rw [not_and_or] at h
    rcases h with h | h
    · exact absurd hc (by simpa using h)
    · refine (List.filter_eq_self.mpr ?_).symm
      intro a ha
      simp only [decide_eq_true_eq]
      intro hEq
      exact h (hEq ▸ ha)

/-! ### Lemmas: basenames of joined paths -/

theorem takeWhile_append_all {p : Char → Bool} (A B : List Char)
    (hA : ∀ a ∈ A, p a = true) : (A ++ B).takeWhile p = A ++ B.takeWhile p := by
  induction A with
  | nil => simp
  | cons a as ih =>
    rw [List.cons_append, List.takeWhile_cons_of_pos (hA a (by simp)),
      ih (fun x hx => hA x (by simp [hx])), List.cons_append]

/-- The basename of a directory joined with a non-empty slash-free file
pattern is that pattern. -/
theorem basenameL_pathJoin (d b : List Char) (hb : b ≠ [])
    (hb2 : ∀ c ∈ b, c ≠ '/') :
    basenameL (pathJoinL d b) = b := by
  obtain ⟨c, cs, hbr⟩ : ∃ c cs, b.reverse = c :: cs := by
    cases hx : b.reverse with
    | nil => exact absurd (by simpa using congrArg List.reverse hx) hb
    | cons c cs => exact ⟨c, cs, rfl⟩
  have hcmem : c ∈ b := by
    have : c ∈ b.reverse := by rw [hbr]; simp
    simpa using this
  have hcslash : (c = '/') = False := by
    simp [hb2 c hcmem]
  have hrevall : ∀ x ∈ b.reverse, (decide (x ≠ '/')) = true := by
    intro x hx
    simp [hb2 x (List.mem_reverse.mp hx)]
  have hdrop : ∀ (r : List Char), (b.reverse ++ r).dropWhile (· = '/') = b.reverse ++ r := by
    intro r
    rw [hbr, List.cons_append, List.dropWhile_cons_of_neg (by simp [hcslash])]
  have hdrop0 : b.reverse.dropWhile (· = '/') = b.reverse := by
    have := hdrop []
    simpa using this
  simp only [basenameL, pathJoinL]
  split
  · -- d = [] : the path is b itself
    rw [hdrop0, List.takeWhile_eq_self_iff.mpr hrevall, List.reverse_reverse]
  · split
    · -- d ends in a slash : the path is d ++ b
      next hd hlast =>
      rw [List.reverse_append, hdrop]
      obtain ⟨t, ht⟩ : ∃ t, d.reverse = '/' :: t := by
        cases hx : d.reverse with
        | nil =>
          exact absurd (by simpa using congrArg List.reverse hx) hd
        | cons y ys =>
          have hy : d.getLast? = some y := by
            rw [← List.head?_reverse, hx]; rfl
          rw [hlast] at hy
          exact ⟨ys, by rw [(Option.some_inj.mp hy).symm]⟩
      rw [ht, takeWhile_append_all _ _ hrevall,
        List.takeWhile_cons_of_neg (by simp), List.append_nil, List.reverse_reverse]
    · -- otherwise : the path is d ++ '/' :: b
      rw [List.reverse_append, List.reverse_cons]
      rw [List.append_assoc, hdrop, List.singleton_append,
        takeWhile_append_all _ _ hrevall,
        List.takeWhile_cons_of_neg (by simp), List.append_nil, List.reverse_reverse]

/-! ### Lemmas: the fan-out settles every hook -/

theorem notify_eq_map (hooks : List HookT) (result : DownloadResult) :
    notify hooks result
      = Except.ok (hooks.map (fun h => settleOne (h.exec result none))) := by
  simp only [notify, allSettled, List.map_map]
  rfl

/-- The flushed candidate of a full run: stderr traffic never affects it. -/
theorem runProcess_candidate (outChunks errChunks : List (List Char)) :
    (closeFlush (feedErrAll (feedAll initState outChunks) errChunks)).finalFilePath
      = captureCandidate outChunks := by
  rw [closeFlush_final]
  obtain ⟨hb, _, hf⟩ := feedErrAll_preserve (feedAll initState outChunks) errChunks
  rw [hb, hf, ← closeFlush_final]
  rfl

/-! ### Claim theorems -/

/-- C1: for every request where the child process exits with status 0 and the
candidate absolute output path captured from its stdout (a line ending in a
supported media extension) exists on disk at exit time, the run returns
`Success` whose `fileName` is the path's last segment (its basename) and
whose derived title is that file name with its extension stripped. -/
theorem run_success_filename
    (fs : List (List Char)) (url cookieFile : List Char)
    (outChunks errChunks : List (List Char)) (p : List Char)
    (hcand : captureCandidate outChunks = p)
    (hne : p ≠ [])
    (hex : p ∈ cleanupFs fs cookieFile) :
    (runProcess fs url cookieFile outChunks errChunks (some 0)).1
      = Outcome.success p (basenameL p)
          (basenameSufL (basenameL p) (extnameL (basenameL p))) url := by
  have hfinal :
      (closeFlush (feedErrAll (feedAll initState outChunks) errChunks)).finalFilePath
        = p := (runProcess_candidate outChunks errChunks).trans hcand
  simp only [runProcess, closeHandler]
  rw [hfinal]
  rw [if_neg (by simp)]
  rw [if_neg (by push_neg; exact ⟨hne, hex⟩)]

/-- C1 witness: a run that prints an existing `.mp3` path and exits 0 returns
the corresponding `Success`. -/
theorem run_success_filename_witness :
    (runProcess ["/app/downloads/audio/track.mp3".data]
        "https://example.com/a".data []
        ["downloading 100%\n/app/downloads/audio/track.mp3\n".data] [] (some 0)).1
      = Outcome.success "/app/downloads/audio/track.mp3".data
          (basenameL "/app/downloads/audio/track.mp3".data)
          (basenameSufL (basenameL "/app/downloads/audio/track.mp3".data)
            (extnameL (basenameL "/app/downloads/audio/track.mp3".data)))
          "https://example.com/a".data :=
  run_success_filename _ _ _ _ _ _ (by decide) (by decide) (by decide)

/-- C2: when stdout holds two or more qualifying absolute output-path lines,
the captured candidate equals the last such line (last-match-wins),
regardless of how the text was sliced into data chunks; the unterminated
trailing slice is retained and classified at the close-time flush, since the
lines are those of the concatenated text. -/
theorem stdout_last_match_wins (chunks : List (List Char))
    (h : 2 ≤ (qualifiedLines chunks.join).length) :
    captureCandidate chunks = (qualifiedLines chunks.join).getLast?.getD [] :=
  captureCandidate_eq chunks

/-- C2 witness: two qualifying paths arriving split across chunk boundaries,
the second one unterminated, capture the second. -/
theorem stdout_last_match_wins_witness :
    2 ≤ (qualifiedLines (["/a/x.mp".data, "3\n/b/y.m".data, "p3".data].join)).length
    ∧ captureCandidate ["/a/x.mp".data, "3\n/b/y.m".data, "p3".data]
        = (qualifiedLines (["/a/x.mp".data, "3\n/b/y.m".data, "p3".data].join)).getLast?.getD [] :=
  ⟨by decide, stdout_last_match_wins _ (by decide)⟩

/-- C3: when the child exits 0 but no qualifying path was captured, or the
captured path does not exist on disk at exit time, the run returns the
distinct file-not-detected failure and never `Success`. -/
theorem run_output_not_located
    (fs : List (List Char)) (url cookieFile : List Char)
    (outChunks errChunks : List (List Char))
    (h : captureCandidate outChunks = []
      ∨ captureCandidate outChunks ∉ cleanupFs fs cookieFile) :
    (runProcess fs url cookieFile outChunks errChunks (some 0)).1
      = Outcome.failure "Download failed - file not detected".data
          "yt-dlp exited successfully but the output filename could not be determined.".data
    ∧ ∀ fp fn dt su, (runProcess fs url cookieFile outChunks errChunks (some 0)).1
        ≠ Outcome.success fp fn dt su := by
  have hfinal :
      (closeFlush (feedErrAll (feedAll initState outChunks) errChunks)).finalFilePath
        = captureCandidate outChunks := runProcess_candidate outChunks errChunks
  have heq : (runProcess fs url cookieFile outChunks errChunks (some 0)).1
      = Outcome.failure "Download failed - file not detected".data
          "yt-dlp exited successfully but the output filename could not be determined.".data := by
    simp only [runProcess, closeHandler]
    rw [hfinal, if_neg (by simp), if_pos h]
  exact ⟨heq, fun fp fn dt su hcontra => by rw [heq] at hcontra; cases hcontra⟩

/-- C3 witness: a run whose stdout holds no qualifying path, exiting 0,
fails with the file-not-detected kind. -/
theorem run_output_not_located_witness :
    (runProcess [] "https://example.com/a".data [] ["all done\n".data] [] (some 0)).1
      = Outcome.failure "Download failed - file not detected".data
          "yt-dlp exited successfully but the output filename could not be determined.".data
    ∧ ∀ fp fn dt su, (runProcess [] "https://example.com/a".data []
        ["all done\n".data] [] (some 0)).1 ≠ Outcome.success fp fn dt su :=
  run_output_not_located _ _ _ _ _ (Or.inl (by decide))

/-- C4 counterexample: the non-zero-exit branch performs no case-insensitive
diagnostic-substring inspection and produces no specific error kind. Stderr
output carrying the age-restriction diagnostic, or the rotated-cookies
diagnostic, yields exactly the same generic kind as unrelated output: always
the single `Download failed` error with the raw logs as detail. -/
theorem nonzero_exit_no_diagnostic_kind :
    (runProcess [] "https://example.com/v".data [] []
        ["ERROR: Sign in to confirm your age\n".data] (some 1)).1
      = Outcome.failure "Download failed".data
          "ERROR: Sign in to confirm your age".data
    ∧ (runProcess [] "https://example.com/v".data [] []
        ["ERROR: The provided YouTube account cookies are no longer valid\n".data]
        (some 1)).1
      = Outcome.failure "Download failed".data
          "ERROR: The provided YouTube account cookies are no longer valid".data
    ∧ (runProcess [] "https://example.com/v".data [] []
        ["ERROR: some entirely unrelated problem\n".data] (some 1)).1
      = Outcome.failure "Download failed".data
          "ERROR: some entirely unrelated problem".data := by
  refine ⟨?_, ?_, ?_⟩ <;> decide

/-- C4 amended: for every request where the child exits with a non-zero (or
null) status — silent runs included — the run returns the generic
`Download failed` failure whose raw detail is exactly the joined stderr ring
buffer of the run's final state, falling back to the joined stdout ring
buffer; and that detail is non-empty whenever the process produced any
non-blank output on either stream. -/
theorem nonzero_exit_generic_failure
    (fs : List (List Char)) (url cookieFile : List Char)
    (outChunks errChunks : List (List Char)) (code : Option Int)
    (hcode : code ≠ some 0) :
    (runProcess fs url cookieFile outChunks errChunks code).1
      = Outcome.failure "Download failed".data
          (failureDetails (closeFlush (feedErrAll (feedAll initState outChunks)
            errChunks)))
    ∧ ((∃ chunk ∈ outChunks ++ errChunks, ∃ ch ∈ chunk, isWS ch = false) →
        failureDetails (closeFlush (feedErrAll (feedAll initState outChunks)
          errChunks)) ≠ []) := by
  constructor
  · simp only [runProcess, closeHandler, failureDetails]
    rw [if_pos hcode]
  · intro hout
    simp only [failureDetails]
    by_cases he : joinNlL (closeFlush (feedErrAll (feedAll initState outChunks)
        errChunks)).errorLogs = []
    · rw [if_neg (by simpa using he)]
      rcases hout with ⟨chunk, hchunk, ch, hch, hw⟩
      rcases List.mem_append.mp hchunk with hmem | hmem
      · -- the non-blank character arrived on stdout
        have hjoin : ch ∈ outChunks.join := List.mem_join.mpr ⟨chunk, hmem, hch⟩
        obtain ⟨seg, hseg, hchseg⟩ :=
          mem_splitNl _ ch hjoin (isWS_false_ne_newline hw)
        have htr : trimL seg ≠ [] := trimL_ne_of_mem hchseg hw
        have hlogs : (closeFlush (feedErrAll (feedAll initState outChunks)
              errChunks)).logs
            = ((splitNl outChunks.join).foldl processLine initState).logs := by
          rw [closeFlush_logs]
          obtain ⟨hb, hl, _⟩ :=
            feedErrAll_preserve (feedAll initState outChunks) errChunks
          rw [hb, hl, ← closeFlush_logs, feedAll_eq_absorb, closeFlush_absorb]
        rw [hlogs]
        refine joinNlL_ne_nil _ ?_ ?_
        · exact foldl_processLine_logs_ne _ _ (Or.inr ⟨seg, hseg, htr⟩)
        · exact foldl_processLine_logs_allNE _ _ (by intro e he'; simp [initState] at he')
      · -- the non-blank character arrived on stderr, contradicting `he`
        obtain ⟨seg, hseg, hchseg⟩ :=
          mem_splitNl _ ch hch (isWS_false_ne_newline hw)
        have htr : trimL seg ≠ [] := trimL_ne_of_mem hchseg hw
        have herrne : (feedErrAll (feedAll initState outChunks)
            errChunks).errorLogs ≠ [] :=
          feedErrAll_errorLogs_ne _ _ (Or.inr ⟨chunk, hmem, seg, hseg, htr⟩)
        have hbase : (feedAll initState outChunks).errorLogs = [] := by
          rw [feedAll_eq_absorb, absorb_errorLogs]
          rfl
        have hallne : ∀ e ∈ (feedErrAll (feedAll initState outChunks)
            errChunks).errorLogs, e ≠ [] :=
          feedErrAll_errorLogs_allNE _ _ (by rw [hbase]; intro e he'; simp at he')
        refine absurd he ?_
        rw [closeFlush_errorLogs]
        exact joinNlL_ne_nil _ herrne hallne
    · rw [if_pos (by simpa using he)]
      exact he

/-- C4 amended witness: a run exiting 1 with one stderr line fails with the
ring-buffer detail, which evaluates to that line and is non-empty. -/
theorem nonzero_exit_generic_failure_witness :
    (some 1 : Option Int) ≠ some 0
    ∧ ((runProcess [] "https://example.com/v".data [] []
          ["ERROR: boom\n".data] (some 1)).1
        = Outcome.failure "Download failed".data
            (failureDetails (closeFlush (feedErrAll (feedAll initState [])
              ["ERROR: boom\n".data])))
      ∧ ((∃ chunk ∈ ([] : List (List Char)) ++ ["ERROR: boom\n".data],
            ∃ ch ∈ chunk, isWS ch = false) →
          failureDetails (closeFlush (feedErrAll (feedAll initState [])
            ["ERROR: boom\n".data])) ≠ []))
    ∧ failureDetails (closeFlush (feedErrAll (feedAll initState [])
        ["ERROR: boom\n".data])) = "ERROR: boom".data :=
  ⟨by decide,
    nonzero_exit_generic_failure [] "https://example.com/v".data [] []
      ["ERROR: boom\n".data] (some 1) (by decide),
    by decide⟩

/-- C5: when authentication cookie text is supplied (non-blank), the
uniquely-named temporary cookie file is a non-empty path created on disk
before the spawn, and whatever the child did to the filesystem and however
the process exited, the filesystem the close handler returns is exactly the
intermediate one with the cookie path removed: the cookie file no longer
exists, and no other path is removed by the cleanup. -/
theorem cookie_file_cleanup
    (fs : List (List Char)) (base cookies id url : List Char)
    (fsMid : List (List Char)) (st : RunState) (code : Option Int)
    (h : trimL cookies ≠ []) :
    (setupCookie fs base cookies id).1 ≠ []
    ∧ (setupCookie fs base cookies id).1 ∈ (setupCookie fs base cookies id).2
    ∧ (closeHandler fsMid url (setupCookie fs base cookies id).1 st code).2
        = fsMid.filter (· ≠ (setupCookie fs base cookies id).1)
    ∧ (setupCookie fs base cookies id).1
        ∉ (closeHandler fsMid url (setupCookie fs base cookies id).1 st code).2 := by
  have hcf : (setupCookie fs base cookies id).1 = cookieFileName base id := by
    simp only [setupCookie, if_pos h]
  have hne : cookieFileName base id ≠ [] := by
    have htxt : (".txt".data : List Char) ≠ [] := by decide
    simp only [cookieFileName, pathJoinL]
    split
    · exact List.append_ne_nil_of_right_ne_nil _ htxt
    · split
      · next hd _ => exact List.append_ne_nil_of_left_ne_nil hd _
      · next hd _ => exact List.append_ne_nil_of_left_ne_nil hd _
  refine ⟨?_, ?_, ?_, ?_⟩
  · rw [hcf]; exact hne
  · simp only [setupCookie, if_pos h]
    split
    · next hmem => exact hmem
    · simp
  · rw [closeHandler_snd, hcf, cleanupFs_eq_filter _ _ hne]
  · rw [closeHandler_snd, hcf, cleanupFs_eq_filter _ _ hne]
    intro hmem
    have := (List.mem_filter.mp hmem).2
    simp at this

/-- C5 witness: a concrete cookie upload's temporary file is created and then
removed by the close handler while an unrelated file survives. -/
theorem cookie_file_cleanup_witness :
    trimL "# Netscape HTTP Cookie File".data ≠ []
    ∧ ((setupCookie [] "/app/downloads".data "# Netscape HTTP Cookie File".data
          "00aa11bb".data).1 ≠ []
      ∧ (setupCookie [] "/app/downloads".data "# Netscape HTTP Cookie File".data
          "00aa11bb".data).1
        ∈ (setupCookie [] "/app/downloads".data "# Netscape HTTP Cookie File".data
          "00aa11bb".data).2
      ∧ (closeHandler ["/app/downloads/videos/t.mp4".data,
            "/app/downloads/cookies_00aa11bb.txt".data] "u".data
          (setupCookie [] "/app/downloads".data "# Netscape HTTP Cookie File".data
            "00aa11bb".data).1 initState (some 0)).2
        = (["/app/downloads/videos/t.mp4".data,
            "/app/downloads/cookies_00aa11bb.txt".data] : List (List Char)).filter
            (· ≠ (setupCookie [] "/app/downloads".data
              "# Netscape HTTP Cookie File".data "00aa11bb".data).1)
      ∧ (setupCookie [] "/app/downloads".data "# Netscape HTTP Cookie File".data
          "00aa11bb".data).1
        ∉ (closeHandler ["/app/downloads/videos/t.mp4".data,
            "/app/downloads/cookies_00aa11bb.txt".data] "u".data
          (setupCookie [] "/app/downloads".data "# Netscape HTTP Cookie File".data
            "00aa11bb".data).1 initState (some 0)).2) :=
  ⟨by decide,
    cookie_file_cleanup [] "/app/downloads".data "# Netscape HTTP Cookie File".data
      "00aa11bb".data "u".data
      ["/app/downloads/videos/t.mp4".data, "/app/downloads/cookies_00aa11bb.txt".data]
      initState (some 0) (by decide)⟩

/-- C6: for every outcome and hook list, `notify` returns normally (an
`ok` value, never a raised error) carrying the all-settled results: one
settled record per registered hook, each determined solely by that hook's own
execution — so every hook is attempted exactly once, no failure short-circuits
or cancels another, and the zero-target all-fulfilled case is a completing
no-op. -/
theorem notify_all_settled (hooks : List HookT) (result : DownloadResult) :
    notify hooks result
      = Except.ok (hooks.map (fun h => settleOne (h.exec result none)))
    ∧ (hooks.map (fun h => settleOne (h.exec result none))).length = hooks.length
    ∧ (notify hooks result).isOk = true := by
  refine ⟨notify_eq_map hooks result, by simp, ?_⟩
  rw [notify_eq_map]
  rfl

/-- C7 (code bug): the server calls `hookManager.notify(result, hookConfig)`
but `notify`'s declared signature takes only the result, so the per-request
configuration is dropped and `WebhookHook.execute` runs with an undefined
config. With a request override of two webhook URLs and a process-wide
default configured, the run POSTs only to the default — while the hook's own
`execute`, handed the same config directly, would POST to exactly the two
override URLs and skip the default. -/
theorem notify_drops_webhook_override :
    notifyWebhookPosts (some "https://default.example/hook".data)
        ⟨"/app/downloads/videos/t.mp4".data, "t.mp4".data, "t".data,
          "https://example.com/v".data⟩
        (some { webhook := some [⟨"https://a.example/hook".data⟩,
          ⟨"https://b.example/hook".data⟩] })
      = [("https://default.example/hook".data,
          (⟨"/app/downloads/videos/t.mp4".data, "t.mp4".data, "t".data,
            "https://example.com/v".data⟩ : DownloadResult))]
    ∧ webhookExecutePosts (some "https://default.example/hook".data)
        ⟨"/app/downloads/videos/t.mp4".data, "t.mp4".data, "t".data,
          "https://example.com/v".data⟩
        (some { webhook := some [⟨"https://a.example/hook".data⟩,
          ⟨"https://b.example/hook".data⟩] })
      = [("https://a.example/hook".data,
          (⟨"/app/downloads/videos/t.mp4".data, "t.mp4".data, "t".data,
            "https://example.com/v".data⟩ : DownloadResult)),
         ("https://b.example/hook".data,
          (⟨"/app/downloads/videos/t.mp4".data, "t.mp4".data, "t".data,
            "https://example.com/v".data⟩ : DownloadResult))] := by
  constructor <;> decide

/-- C8: for every SoundCloud URL with the audio-only flag off, the platform
override makes the effective mode audio-only and the selected extraction
format is the lossless `wav` block — not the `mp3` block used elsewhere —
and that block appears contiguously in the spawned argument vector. -/
theorem soundcloud_audio_wav (url : List Char) (h : isSoundCloud url = true) :
    effectiveAudioOnly url false = true
    ∧ formatArgs url false = ["-x".data, "--audio-format".data, "wav".data]
    ∧ "mp3".data ∉ formatArgs url false
    ∧ formatArgs url false
        ≠ ["-x".data, "--audio-format".data, "mp3".data,
           "--audio-quality".data, "0".data]
    ∧ ∀ (enableRange : Bool) (startTime endTime : Option Nat)
        (cookieFile outputTmpl : List Char),
        ∃ pre post,
          buildArgs url false enableRange startTime endTime cookieFile outputTmpl
            = pre ++ formatArgs url false ++ post := by
  have h1 : effectiveAudioOnly url false = true := by
    simp [effectiveAudioOnly, h]
  have h2 : formatArgs url false = ["-x".data, "--audio-format".data, "wav".data] := by
    simp [formatArgs, effectiveAudioOnly, h]
  refine ⟨h1, h2, ?_, ?_, ?_⟩
  · rw [h2]; decide
  · rw [h2]; decide
  · intro enableRange startTime endTime cookieFile outputTmpl
    refine ⟨["--no-playlist".data, "--print".data, "after_move:filepath".data,
        "--no-simulate".data, "--js-runtimes".data, "bun".data, "-o".data,
        outputTmpl] ++ cookieArgs cookieFile,
      rangeArgs enableRange startTime endTime ++ [url], ?_⟩
    simp [buildArgs, List.append_assoc]

/-- C8 witness: the SoundCloud scenario URL with `audioOnly: false`. -/
theorem soundcloud_audio_wav_witness :
    isSoundCloud "https://soundcloud.com/x/y".data = true
    ∧ (effectiveAudioOnly "https://soundcloud.com/x/y".data false = true
      ∧ formatArgs "https://soundcloud.com/x/y".data false
          = ["-x".data, "--audio-format".data, "wav".data]
      ∧ "mp3".data ∉ formatArgs "https://soundcloud.com/x/y".data false
      ∧ formatArgs "https://soundcloud.com/x/y".data false
          ≠ ["-x".data, "--audio-format".data, "mp3".data,
             "--audio-quality".data, "0".data]
      ∧ ∀ (enableRange : Bool) (startTime endTime : Option Nat)
          (cookieFile outputTmpl : List Char),
          ∃ pre post,
            buildArgs "https://soundcloud.com/x/y".data false enableRange
                startTime endTime cookieFile outputTmpl
              = pre ++ formatArgs "https://soundcloud.com/x/y".data false ++ post) :=
  ⟨by decide, soundcloud_audio_wav _ (by decide)⟩

/-- C9 counterexample: a request with `startTime = 10, endTime = 20` does
produce the `*00:00:10-00:00:20` range directive, but its output template is
the plain title/extension pattern under the target directory, which contains
no `10s-20s` filename suffix — refuting the claimed suffix. -/
theorem range_no_filename_suffix :
    rangeArgs true (some 10) (some 20)
      = ["--download-sections".data, "*00:00:10-00:00:20".data]
    ∧ outputTemplate "/app/downloads".data "https://example.com/v".data false none
      = "/app/downloads/videos/%(title)s.%(ext)s".data
    ∧ containsSeg
        (outputTemplate "/app/downloads".data "https://example.com/v".data false none)
        "10s-20s".data = false := by
  refine ⟨?_, ?_, ?_⟩ <;> decide

/-- C9 amended: a request with `startTime = 10, endTime = 20` and the range
enabled passes the zero-padded `*00:00:10-00:00:20` download-sections
directive to the tool, and the output template's filename component stays
exactly `%(title)s.%(ext)s` — no range suffix is appended to it. -/
theorem range_directive_no_suffix
    (base url : List Char) (audioOnly : Bool) (subFolder : Option (List Char))
    (cookieFile outputTmpl : List Char) :
    (∃ pre post,
        buildArgs url audioOnly true (some 10) (some 20) cookieFile outputTmpl
          = pre ++ ["--download-sections".data, "*00:00:10-00:00:20".data] ++ post)
    ∧ basenameL (outputTemplate base url audioOnly subFolder)
        = "%(title)s.%(ext)s".data := by
  constructor
  · have hr : rangeArgs true (some 10) (some 20)
        = ["--download-sections".data, "*00:00:10-00:00:20".data] := by decide
    refine ⟨["--no-playlist".data, "--print".data, "after_move:filepath".data,
        "--no-simulate".data, "--js-runtimes".data, "bun".data, "-o".data,
        outputTmpl] ++ cookieArgs cookieFile ++ formatArgs url audioOnly,
      [url], ?_⟩
    rw [← hr]
    simp [buildArgs, List.append_assoc]
  · exact basenameL_pathJoin _ _ (by decide) (by decide)

/-- C10: the fan-out's `notify` passes only the outcome record to each hook:
the per-request configuration handed to the server's two-argument call is
dropped at the call boundary, so every hook's `execute` receives an undefined
(`none`) configuration on every invocation through `notify`, and the settled
results are independent of whatever configuration the caller supplied. -/
theorem notify_config_never_forwarded (hooks : List HookT)
    (result : DownloadResult) (cfg cfg' : Option HookConfig) :
    serverNotify hooks result cfg
      = Except.ok (hooks.map (fun h => settleOne (h.exec result none)))
    ∧ serverNotify hooks result cfg = serverNotify hooks result cfg' := by
  exact ⟨notify_eq_map hooks result, rfl⟩

end MediaDL
